import Mathlib

/-!
Verification of the weighting engine in
`src/research/weighting_algorithm.py` (class `SpaceIndexWeighting`).

Modelling conventions (shallow embedding):

* Python floats are modelled as exact rationals `ℚ`.  The pandas/numpy
  pipeline of the source is purely arithmetic (clip, min, max, sum,
  division), so every step is translated literally over `ℚ`.
* `np.log10` is transcendental and has no exact rational counterpart.
  All definitions are therefore parametric in a function `rlog : ℚ → ℚ`
  standing for log10 on positive rationals; every theorem below either
  holds for an arbitrary `rlog` or concerns inputs whose result does not
  depend on the value of `rlog`.  `np.log10` applied to a non-positive
  value (the source first replaces `0` by `np.nan`) yields NaN, modelled
  as `none : Option ℚ`.
* pandas `Series.min`/`Series.max`/`Series.sum` skip NaN entries
  (`skipna=True`); the embedding takes min/max/sum over the defined
  entries only.  A min/max over an all-NaN or empty series is NaN, and
  the comparison `max_val == min_val` of the source is then False (IEEE
  `NaN == NaN`); the fallback branches of the embedding reproduce exactly the
  list the source computes in that situation (`fillna(0)` turns every
  NaN entry into `0`).
* The one place the source can produce NaN/Infinity in its *output* is
  the division `raw_scores / raw_scores.sum()` (and the analogous
  renormalisation) when the divisor is exactly `0`: numpy then emits
  NaN/inf weights which survive to the returned constituents.  The
  embedding returns `none : Option (List IndexConstituent)` in exactly
  that situation, i.e. `none` means "the source returns a list whose
  weights are NaN/Infinity rather than real numbers".  On every input
  whose divisors are non-zero the embedding returns `some` of the exact
  list of constituents the source builds.
* `np.isclose(a, b)` with its default tolerances is
  `|a - b| ≤ atol + rtol * |b|` with `rtol = 1e-5`, `atol = 1e-8`
  (numpy documentation); for `b = 1.0` this is `|a - 1| ≤ 1e-5 + 1e-8`.
* The Python `list.sort(key=..., reverse=True)` is a stable descending
  sort; it is modelled by `List.insertionSort` with the relation
  `wge a b ↔ b.weight ≤ a.weight`, which is stable in the same sense.
* `summary_stats` returns the empty dict `{}` for an empty constituent
  list and a populated dict otherwise; this is modelled as
  `Option SummaryStats`, with `none` standing for the empty dict.
-/

/-- pandas `Series.clip(lower, upper)`: values below `lower` are raised to
`lower`, values above `upper` are lowered to `upper` (upper bound applied
last, as pandas does). -/
def clipQ (x lo hi : ℚ) : ℚ := min (max x lo) hi

/-- pandas `Series.min()` over the defined entries `x :: xs`. -/
def minOf (x : ℚ) (xs : List ℚ) : ℚ := xs.foldl min x

/-- pandas `Series.max()` over the defined entries `x :: xs`. -/
def maxOf (x : ℚ) (xs : List ℚ) : ℚ := xs.foldl max x

/-- Pointwise combination of three aligned columns of a DataFrame. -/
def zipWith3 (f : α → β → γ → δ) : List α → List β → List γ → List δ
  | a :: as, b :: bs, c :: cs => f a b c :: zipWith3 f as bs cs
  | _, _, _ => []

/-- One row of the input DataFrame of `calculate_weights`. -/
structure Company where
  ticker : String
  name : String
  market_cap : ℚ
  space_revenue_pct : ℚ
  revenue_growth_rate : ℚ
  segments : String
deriving DecidableEq

/-- The `IndexConstituent` dataclass of the source. -/
structure IndexConstituent where
  ticker : String
  name : String
  market_cap : ℚ
  space_revenue_pct : ℚ
  revenue_growth_rate : ℚ
  raw_score : ℚ
  weight : ℚ
  segments : String
deriving DecidableEq

/-- A default company row, used only as the `getD` default. -/
def compdef : Company := ⟨"", "", 0, 0, 0, ""⟩

/-- A default constituent, used only as the `getD` default. -/
def cdef : IndexConstituent := ⟨"", "", 0, 0, 0, 0, 0, ""⟩

/-- The state of a constructed `SpaceIndexWeighting` object: the three
factor weights and the position-size bounds stored by `__init__`. -/
structure SpaceIndexWeighting where
  w_space_rev : ℚ
  w_market_cap : ℚ
  w_growth : ℚ
  max_weight : ℚ
  min_weight : ℚ
deriving DecidableEq

/-- Model of `np.isclose(total, 1.0)` with the default numpy tolerances
`rtol = 1e-5`, `atol = 1e-8`: `|total - 1| ≤ atol + rtol * |1.0|`. -/
def npIsCloseOne (total : ℚ) : Prop := |total - 1| ≤ 1/100000000 + 1/100000

instance (total : ℚ) : Decidable (npIsCloseOne total) := by
  unfold npIsCloseOne; infer_instance

/-- Constructor `SpaceIndexWeighting.__init__`: validates that the three factor
weights sum to 1.0 via `np.isclose` and stores the parameters; `none`
models the raised `ValueError`. -/
def mkSpaceIndexWeighting (space_revenue_weight market_cap_weight growth_weight
    max_position_size min_position_size : ℚ) : Option SpaceIndexWeighting :=
  let total := space_revenue_weight + market_cap_weight + growth_weight
  if npIsCloseOne total then
    some ⟨space_revenue_weight, market_cap_weight, growth_weight,
          max_position_size, min_position_size⟩
  else none

/-- Method `SpaceIndexWeighting.normalize_market_cap`: log-transform (zero caps
are first replaced by NaN, negative caps also give NaN, modelled as
`none`), then min–max rescale the defined transformed values to 0–100;
if all defined values coincide return the neutral 50 for every row; if
no value is defined, the `max_val == min_val` comparison on NaN is False
and the arithmetic produces all-NaN, which `fillna(0)` turns into 0 for
every row.  NaN rows on the rescale path become 0 via `fillna(0)`. -/
def normalize_market_cap (rlog : ℚ → ℚ) (caps : List ℚ) : List ℚ :=
  let logCaps := caps.map (fun c => if 0 < c then some (rlog c) else none)
  match logCaps.filterMap id with
  | [] => caps.map (fun _ => 0)
  | v :: vs =>
    let mn := minOf v vs
    let mx := maxOf v vs
    if mx = mn then caps.map (fun _ => 50)
    else logCaps.map (fun o => match o with
      | some x => (x - mn) / (mx - mn) * 100
      | none => 0)

/-- Method `SpaceIndexWeighting.normalize_growth`: clip growth rates to
[-50, 200], then min–max rescale to 0–100, returning the neutral 50 for
every row when all clipped values coincide.  An empty series stays
empty (the NaN min/max comparison is False and the arithmetic over the
empty series yields the empty series). -/
def normalize_growth : List ℚ → List ℚ
  | [] => []
  | r :: rs =>
    let c0 := clipQ r (-50) 200
    let crest := rs.map (fun g => clipQ g (-50) 200)
    let mn := minOf c0 crest
    let mx := maxOf c0 crest
    if mx = mn then (r :: rs).map (fun _ => 50)
    else (c0 :: crest).map (fun x => (x - mn) / (mx - mn) * 100)

/-- The raw blended scores of `calculate_weights`:
`space_revenue_pct * w_space_rev + cap_norm * w_market_cap +
growth_norm * w_growth`, row by row. -/
def rawScores (rlog : ℚ → ℚ) (cfg : SpaceIndexWeighting)
    (companies : List Company) : List ℚ :=
  zipWith3
    (fun e c g => e * cfg.w_space_rev + c * cfg.w_market_cap + g * cfg.w_growth)
    (companies.map (fun x => x.space_revenue_pct))
    (normalize_market_cap rlog (companies.map (fun x => x.market_cap)))
    (normalize_growth (companies.map (fun x => x.revenue_growth_rate)))

/-- The weight pipeline of `calculate_weights`: divide each raw score by
the total, clip to `[min_weight, max_weight]`, renormalise by the new
sum.  `none` models the NaN/Infinity weights numpy produces when a
divisor is exactly zero (no fallback exists in the source). -/
def finalWeights (cfg : SpaceIndexWeighting) (scores : List ℚ) :
    Option (List ℚ) :=
  let total := scores.sum
  if total = 0 then none
  else
    let unconstrained := scores.map (fun s => s / total)
    let clipped := unconstrained.map
      (fun w => clipQ w cfg.min_weight cfg.max_weight)
    let csum := clipped.sum
    if csum = 0 then none
    else some (clipped.map (fun w => w / csum))

/-- The constituent record built for row `comp` with raw score `s` and
final weight `w` in the loop of `calculate_weights`. -/
def mkConstituent (comp : Company) (s w : ℚ) : IndexConstituent :=
  ⟨comp.ticker, comp.name, comp.market_cap, comp.space_revenue_pct,
   comp.revenue_growth_rate, s, w, comp.segments⟩

/-- The constituent list of `calculate_weights` in input order, before
the final sort. -/
def rawConstituents (rlog : ℚ → ℚ) (cfg : SpaceIndexWeighting)
    (companies : List Company) : Option (List IndexConstituent) :=
  match finalWeights cfg (rawScores rlog cfg companies) with
  | none => none
  | some ws => some (zipWith3 mkConstituent companies
      (rawScores rlog cfg companies) ws)

/-- The sort key relation of `constituents.sort(key=weight,
reverse=True)`: `a` may precede `b` iff `b.weight ≤ a.weight`. -/
def wge (a b : IndexConstituent) : Prop := b.weight ≤ a.weight

instance : DecidableRel wge := fun a b =>
  inferInstanceAs (Decidable (b.weight ≤ a.weight))

instance : IsTotal IndexConstituent wge :=
  ⟨fun a b => le_total b.weight a.weight⟩

instance : IsTrans IndexConstituent wge :=
  ⟨fun _ _ _ h1 h2 => le_trans h2 h1⟩

/-- The stable descending Python sort by weight. -/
def sortWeightDesc (l : List IndexConstituent) : List IndexConstituent :=
  List.insertionSort wge l

/-- Method `SpaceIndexWeighting.calculate_weights` of the source. -/
def calculate_weights (rlog : ℚ → ℚ) (cfg : SpaceIndexWeighting)
    (companies : List Company) : Option (List IndexConstituent) :=
  match companies with
  | [] => some []
  | _ :: _ => (rawConstituents rlog cfg companies).map sortWeightDesc

/-- The dict returned by `summary_stats` on a non-empty constituent
list. -/
structure SummaryStats where
  num_constituents : Nat
  total_weight : ℚ
  weighted_avg_market_cap : ℚ
  weighted_avg_space_rev_pct : ℚ
  weighted_avg_growth : ℚ
  max_weight : ℚ
  min_weight : ℚ
deriving DecidableEq

/-- Method `SpaceIndexWeighting.summary_stats`; `none` models the empty dict
returned for an empty constituent list. -/
def summary_stats (constituents : List IndexConstituent) :
    Option SummaryStats :=
  match constituents with
  | [] => none
  | c :: cs =>
    some ⟨(c :: cs).length,
          ((c :: cs).map (fun x => x.weight)).sum,
          ((c :: cs).map (fun x => x.market_cap * x.weight)).sum,
          ((c :: cs).map (fun x => x.space_revenue_pct * x.weight)).sum,
          ((c :: cs).map (fun x => x.revenue_growth_rate * x.weight)).sum,
          maxOf c.weight (cs.map (fun x => x.weight)),
          minOf c.weight (cs.map (fun x => x.weight))⟩

/-- The two-step constrained weight exactly as the spec words it
(§4.2): the unconstrained weight is the raw score divided by the sum of
all raw scores, it is clipped to the position band, and the clipped
weight is divided by the sum of all clipped weights.  Written from the
spec, to be compared against the pipeline of the source. -/
def specTwoStepWeight (cfg : SpaceIndexWeighting) (scores : List ℚ)
    (i : Nat) : ℚ :=
  let unconstrained := fun s => s / scores.sum
  let constrained := fun s =>
    clipQ (unconstrained s) cfg.min_weight cfg.max_weight
  constrained (scores.getD i 0) / (scores.map constrained).sum

/-! ### Helper lemmas about the embedding -/

lemma length_zipWith3 (f : α → β → γ → δ) :
    ∀ (as : List α) (bs : List β) (cs : List γ),
      bs.length = as.length → cs.length = as.length →
      (zipWith3 f as bs cs).length = as.length
  | [], [], [], _, _ => rfl
  | [], _ :: _, _, h1, _ => by simp at h1
  | [], [], _ :: _, _, h2 => by simp at h2
  | _ :: _, [], _, h1, _ => by simp at h1
  | _ :: _, _ :: _, [], _, h2 => by simp at h2
  | a :: as, b :: bs, c :: cs, h1, h2 => by
    simp only [zipWith3, List.length_cons, Nat.add_left_inj]
    exact length_zipWith3 f as bs cs (by simpa using h1) (by simpa using h2)

lemma getD_zipWith3 (f : α → β → γ → δ) (da : α) (db : β) (dc : γ) (dd : δ) :
    ∀ (as : List α) (bs : List β) (cs : List γ) (i : Nat),
      i < as.length → bs.length = as.length → cs.length = as.length →
      (zipWith3 f as bs cs).getD i dd =
        f (as.getD i da) (bs.getD i db) (cs.getD i dc)
  | [], _, _, i, hi, _, _ => by simp at hi
  | _ :: _, [], _, _, _, h1, _ => by simp at h1
  | _ :: _, _ :: _, [], _, _, _, h2 => by simp at h2
  | a :: as, b :: bs, c :: cs, 0, _, _, _ => rfl
  | a :: as, b :: bs, c :: cs, i + 1, hi, h1, h2 => by
    simp only [zipWith3, List.getD_cons_succ]
    exact getD_zipWith3 f da db dc dd as bs cs i (by simpa using hi)
      (by simpa using h1) (by simpa using h2)

lemma getD_map (f : α → β) (da : α) (db : β) :
    ∀ (l : List α) (i : Nat), i < l.length →
      (l.map f).getD i db = f (l.getD i da)
  | [], i, hi => by simp at hi
  | a :: l, 0, _ => rfl
  | a :: l, i + 1, hi => by
    simp only [List.map_cons, List.getD_cons_succ]
    exact getD_map f da db l i (by simpa using hi)

lemma map_weight_zipWith3 :
    ∀ (comps : List Company) (ss ws : List ℚ),
      ss.length = comps.length → ws.length = comps.length →
      (zipWith3 mkConstituent comps ss ws).map (fun c => c.weight) = ws
  | [], [], [], _, _ => rfl
  | [], _ :: _, _, h1, _ => by simp at h1
  | [], [], _ :: _, _, h2 => by simp at h2
  | _ :: _, [], _, h1, _ => by simp at h1
  | _ :: _, _ :: _, [], _, h2 => by simp at h2
  | a :: comps, s :: ss, w :: ws, h1, h2 => by
    simp only [zipWith3, List.map_cons, mkConstituent, List.cons.injEq, true_and]
    exact map_weight_zipWith3 comps ss ws (by simpa using h1) (by simpa using h2)

lemma map_ticker_zipWith3 :
    ∀ (comps : List Company) (ss ws : List ℚ),
      ss.length = comps.length → ws.length = comps.length →
      (zipWith3 mkConstituent comps ss ws).map (fun c => c.ticker) =
        comps.map (fun c => c.ticker)
  | [], [], [], _, _ => rfl
  | [], _ :: _, _, h1, _ => by simp at h1
  | [], [], _ :: _, _, h2 => by simp at h2
  | _ :: _, [], _, h1, _ => by simp at h1
  | _ :: _, _ :: _, [], _, h2 => by simp at h2
  | a :: comps, s :: ss, w :: ws, h1, h2 => by
    simp only [zipWith3, List.map_cons, mkConstituent, List.cons.injEq, true_and]
    exact map_ticker_zipWith3 comps ss ws (by simpa using h1) (by simpa using h2)

lemma weight_mem_of_mem_zipWith3 :
    ∀ (comps : List Company) (ss ws : List ℚ) (x : IndexConstituent),
      x ∈ zipWith3 mkConstituent comps ss ws → x.weight ∈ ws
  | a :: comps, s :: ss, w :: ws, x, hx => by
    rcases List.mem_cons.mp hx with h | h
    · subst h; exact List.mem_cons_self _ _
    · exact List.mem_cons_of_mem _ (weight_mem_of_mem_zipWith3 comps ss ws x h)

lemma sum_map_div (l : List ℚ) (c : ℚ) :
    (l.map (fun x => x / c)).sum = l.sum / c := by
  induction l with
  | nil => simp
  | cons a t ih => simp [ih, add_div]

lemma ne_nil_of_sum_pos (l : List ℚ) (h : 0 < l.sum) : l ≠ [] := by
  rintro rfl; simp at h

lemma clipQ_pos (x lo hi : ℚ) (hlo : 0 < lo) (hhi : 0 < hi) :
    0 < clipQ x lo hi :=
  lt_min (lt_of_lt_of_le hlo (le_max_right x lo)) hhi

lemma foldl_min_allEq (y : ℚ) :
    ∀ t : List ℚ, (∀ x ∈ t, x = y) → t.foldl min y = y
  | [], _ => rfl
  | a :: t, h => by
    have ha : a = y := h a (by simp)
    simp only [List.foldl_cons, ha, min_self]
    exact foldl_min_allEq y t (fun x hx => h x (by simp [hx]))

lemma foldl_max_allEq (y : ℚ) :
    ∀ t : List ℚ, (∀ x ∈ t, x = y) → t.foldl max y = y
  | [], _ => rfl
  | a :: t, h => by
    have ha : a = y := h a (by simp)
    simp only [List.foldl_cons, ha, max_self]
    exact foldl_max_allEq y t (fun x hx => h x (by simp [hx]))

lemma length_normalize_growth (rates : List ℚ) :
    (normalize_growth rates).length = rates.length := by
  cases rates with
  | nil => rfl
  | cons r rs =>
    simp only [normalize_growth]
    split <;> simp

lemma length_normalize_market_cap (rlog : ℚ → ℚ) (caps : List ℚ) :
    (normalize_market_cap rlog caps).length = caps.length := by
  simp only [normalize_market_cap]
  rcases hfm : (caps.map fun c => if 0 < c then some (rlog c) else none).filterMap id
    with _ | ⟨v, vs⟩
  · simp
  · simp only []
    split <;> simp

lemma length_rawScores (rlog : ℚ → ℚ) (cfg : SpaceIndexWeighting)
    (comps : List Company) : (rawScores rlog cfg comps).length = comps.length := by
  unfold rawScores
  rw [length_zipWith3]
  · simp
  · rw [length_normalize_market_cap]; simp
  · rw [length_normalize_growth]; simp

/-- Under a positive score total and positive position bounds the
pipeline takes the defined path: clip each `s / total`, then divide by
the sum of the clipped values. -/
lemma finalWeights_eq (cfg : SpaceIndexWeighting) (scores : List ℚ)
    (hpos : 0 < scores.sum) (hmn : 0 < cfg.min_weight)
    (hmx : 0 < cfg.max_weight) :
    finalWeights cfg scores = some
      ((scores.map (fun s => clipQ (s / scores.sum) cfg.min_weight cfg.max_weight)).map
        (fun w => w /
          (scores.map (fun s => clipQ (s / scores.sum) cfg.min_weight cfg.max_weight)).sum)) := by
  have hne : scores ≠ [] := ne_nil_of_sum_pos scores hpos
  have hcsum : 0 <
      (scores.map (fun s => clipQ (s / scores.sum) cfg.min_weight cfg.max_weight)).sum := by
    apply List.sum_pos
    · intro x hx
      rcases List.mem_map.mp hx with ⟨s, _, rfl⟩
      exact clipQ_pos _ _ _ hmn hmx
    · simpa using hne
  simp only [finalWeights, if_neg hpos.ne', List.map_map, Function.comp_def]
  rw [if_neg hcsum.ne']

lemma sum_finalWeights_eq_one (cfg : SpaceIndexWeighting) (scores : List ℚ)
    (hpos : 0 < scores.sum) (hmn : 0 < cfg.min_weight)
    (hmx : 0 < cfg.max_weight) (ws : List ℚ)
    (hws : finalWeights cfg scores = some ws) : ws.sum = 1 := by
  rw [finalWeights_eq cfg scores hpos hmn hmx] at hws
  have hcsum : 0 <
      (scores.map (fun s => clipQ (s / scores.sum) cfg.min_weight cfg.max_weight)).sum := by
    apply List.sum_pos
    · intro x hx
      rcases List.mem_map.mp hx with ⟨s, _, rfl⟩
      exact clipQ_pos _ _ _ hmn hmx
    · simpa using ne_nil_of_sum_pos scores hpos
  have := hws
  injection this with h
  rw [← h, sum_map_div, div_self hcsum.ne']

lemma pos_of_mem_finalWeights (cfg : SpaceIndexWeighting) (scores : List ℚ)
    (hpos : 0 < scores.sum) (hmn : 0 < cfg.min_weight)
    (hmx : 0 < cfg.max_weight) (ws : List ℚ)
    (hws : finalWeights cfg scores = some ws) : ∀ w ∈ ws, 0 < w := by
  rw [finalWeights_eq cfg scores hpos hmn hmx] at hws
  have hcsum : 0 <
      (scores.map (fun s => clipQ (s / scores.sum) cfg.min_weight cfg.max_weight)).sum := by
    apply List.sum_pos
    · intro x hx
      rcases List.mem_map.mp hx with ⟨s, _, rfl⟩
      exact clipQ_pos _ _ _ hmn hmx
    · simpa using ne_nil_of_sum_pos scores hpos
  injection hws with h
  intro w hw
  rw [← h] at hw
  rcases List.mem_map.mp hw with ⟨x, hx, rfl⟩
  rcases List.mem_map.mp hx with ⟨s, _, rfl⟩
  exact div_pos (clipQ_pos _ _ _ hmn hmx) hcsum

lemma length_finalWeights (cfg : SpaceIndexWeighting) (scores ws : List ℚ)
    (hws : finalWeights cfg scores = some ws) : ws.length = scores.length := by
  simp only [finalWeights] at hws
  split_ifs at hws with h0 h1
  injection hws with h
  rw [← h]; simp

lemma rawScores_nil (rlog : ℚ → ℚ) (cfg : SpaceIndexWeighting) :
    rawScores rlog cfg [] = [] := rfl

lemma comps_ne_nil_of_scores_sum_pos (rlog : ℚ → ℚ)
    (cfg : SpaceIndexWeighting) (comps : List Company)
    (hpos : 0 < (rawScores rlog cfg comps).sum) : comps ≠ [] := by
  rintro rfl
  rw [rawScores_nil] at hpos
  simp at hpos

/-! ### Stability and sortedness of the final sort -/

lemma sorted_sortWeightDesc (l : List IndexConstituent) :
    List.Sorted wge (sortWeightDesc l) :=
  List.sorted_insertionSort wge l

lemma perm_sortWeightDesc (l : List IndexConstituent) :
    (sortWeightDesc l).Perm l :=
  List.perm_insertionSort wge l

lemma filter_orderedInsert_of_eq (a : IndexConstituent) (q : ℚ)
    (ha : a.weight = q) :
    ∀ l : List IndexConstituent,
      (List.orderedInsert wge a l).filter (fun c => decide (c.weight = q)) =
        a :: l.filter (fun c => decide (c.weight = q))
  | [] => by simp [List.orderedInsert, ha]
  | b :: l => by
    by_cases hab : wge a b
    · simp [List.orderedInsert, hab, ha]
    · have hblt : a.weight < b.weight := lt_of_not_le hab
      have hbq : ¬ (b.weight = q) := by
        intro hbq; rw [hbq, ← ha] at hblt; exact lt_irrefl _ hblt
      have ih := filter_orderedInsert_of_eq a q ha l
      simp only [List.orderedInsert, if_neg hab, List.filter_cons,
        decide_eq_true_eq, if_neg hbq, ih]

lemma filter_orderedInsert_of_ne (a : IndexConstituent) (q : ℚ)
    (ha : ¬ (a.weight = q)) :
    ∀ l : List IndexConstituent,
      (List.orderedInsert wge a l).filter (fun c => decide (c.weight = q)) =
        l.filter (fun c => decide (c.weight = q))
  | [] => by simp [List.orderedInsert, ha]
  | b :: l => by
    by_cases hab : wge a b
    · simp [List.orderedInsert, hab, ha]
    · have ih := filter_orderedInsert_of_ne a q ha l
      simp only [List.orderedInsert, if_neg hab, List.filter_cons, ih]

lemma filter_sortWeightDesc (q : ℚ) :
    ∀ l : List IndexConstituent,
      (sortWeightDesc l).filter (fun c => decide (c.weight = q)) =
        l.filter (fun c => decide (c.weight = q))
  | [] => rfl
  | a :: l => by
    have ih := filter_sortWeightDesc q l
    unfold sortWeightDesc at ih ⊢
    show (List.orderedInsert wge a (List.insertionSort wge l)).filter
        (fun c => decide (c.weight = q)) = _
    by_cases ha : a.weight = q
    · rw [filter_orderedInsert_of_eq a q ha, ih]
      simp [List.filter_cons, ha]
    · rw [filter_orderedInsert_of_ne a q ha, ih]
      simp [List.filter_cons, ha]

lemma calculate_weights_of_ne_nil (rlog : ℚ → ℚ) (cfg : SpaceIndexWeighting)
    (comps : List Company) (hne : comps ≠ []) :
    calculate_weights rlog cfg comps =
      (rawConstituents rlog cfg comps).map sortWeightDesc := by
  rcases comps with _ | ⟨a, t⟩
  · exact absurd rfl hne
  · rfl

/-- Under positive bounds and a positive score total, the pre-sort
constituent list exists and its weights are the renormalised clipped
weights, which are positive and sum to one. -/
lemma rawConstituents_eq (rlog : ℚ → ℚ) (cfg : SpaceIndexWeighting)
    (comps : List Company) (hmn : 0 < cfg.min_weight)
    (hmx : 0 < cfg.max_weight)
    (hpos : 0 < (rawScores rlog cfg comps).sum) :
    ∃ ws : List ℚ,
      finalWeights cfg (rawScores rlog cfg comps) = some ws ∧
      rawConstituents rlog cfg comps =
        some (zipWith3 mkConstituent comps (rawScores rlog cfg comps) ws) ∧
      ws.length = comps.length ∧ ws.sum = 1 ∧ ∀ w ∈ ws, 0 < w := by
  have hfw := finalWeights_eq cfg (rawScores rlog cfg comps) hpos hmn hmx
  refine ⟨_, hfw, ?_, ?_, ?_, ?_⟩
  · unfold rawConstituents
    rw [hfw]
  · rw [length_finalWeights cfg _ _ hfw]
    exact length_rawScores rlog cfg comps
  · exact sum_finalWeights_eq_one cfg _ hpos hmn hmx _ hfw
  · exact pos_of_mem_finalWeights cfg _ hpos hmn hmx _ hfw

/-! ### Claim theorems -/

/-- C9: an empty candidate set yields the empty constituent list from
`calculate_weights` (no exception), and `summary_stats` of an empty
constituent list yields the empty summary (the empty dict of the
source, modelled as `none`), again without raising. -/
theorem empty_input_ok :
    (∀ (rlog : ℚ → ℚ) (cfg : SpaceIndexWeighting),
      calculate_weights rlog cfg [] = some []) ∧
    summary_stats [] = none :=
  ⟨fun _ _ => rfl, rfl⟩

/-- C3 counterexample: a configuration whose factor weights sum to
`1 + 1e-6`, hence NOT within the claimed tolerance `1e-9` of 1.0, is
nevertheless accepted by the constructor (`np.isclose` uses its default
tolerance `1e-5 + 1e-8`), so construction does not raise exactly on the
claimed condition. -/
theorem config_tolerance_cex :
    (mkSpaceIndexWeighting (2/5 + 1/1000000) (3/10) (3/10) (3/20)
      (1/100)).isSome = true ∧
    ¬ |((2/5 + 1/1000000) + 3/10 + 3/10 : ℚ) - 1| ≤ 1/1000000000 := by
  constructor
  · have h : npIsCloseOne ((2/5 + 1/1000000) + 3/10 + 3/10) := by
      unfold npIsCloseOne
      rw [abs_le]
      norm_num
    simp only [mkSpaceIndexWeighting]
    rw [if_pos h]
    rfl
  · rw [abs_le]
    norm_num

/-- C3 (amended): constructing `SpaceIndexWeighting` fails exactly when
the three factor weights sum to 1.0 beyond the default `np.isclose`
tolerance of `1e-8 + 1e-5` (not `1e-9`), before any company data is
processed; in particular every triple of weights summing to 0.9 is
rejected and every triple summing exactly to 1.0 is accepted. -/
theorem mkSpaceIndexWeighting_iff (srw mcw gw mx mn : ℚ) :
    ((mkSpaceIndexWeighting srw mcw gw mx mn).isSome = true ↔
      |srw + mcw + gw - 1| ≤ 1/100000000 + 1/100000) ∧
    (srw + mcw + gw = 9/10 → mkSpaceIndexWeighting srw mcw gw mx mn = none) ∧
    (srw + mcw + gw = 1 →
      (mkSpaceIndexWeighting srw mcw gw mx mn).isSome = true) := by
  refine ⟨?_, ?_, ?_⟩
  · simp only [mkSpaceIndexWeighting, npIsCloseOne]
    split_ifs with h
    · simpa using h
    · simpa using h
  · intro h
    simp only [mkSpaceIndexWeighting, npIsCloseOne, h]
    rw [if_neg]
    rw [abs_le]
    norm_num
  · intro h
    simp only [mkSpaceIndexWeighting, npIsCloseOne, h]
    rw [if_pos]
    · rfl
    · rw [abs_le]
      norm_num

/-- Witness for C3: the triple (0.3, 0.3, 0.3) sums to 0.9 and is
rejected by the constructor. -/
theorem mkSpaceIndexWeighting_iff_spot :
    mkSpaceIndexWeighting (3/10) (3/10) (3/10) (3/20) (1/100) = none :=
  (mkSpaceIndexWeighting_iff (3/10) (3/10) (3/10) (3/20) (1/100)).2.1
    (by norm_num)

/-- C5 counterexample: when every candidate has market cap 0 (identical
caps), the zero caps are replaced by NaN before the log transform, the
NaN min/max comparison is False, and `fillna(0)` assigns the normalized
cap score 0 to every candidate — not the neutral 50. -/
theorem identical_zero_caps_cex :
    normalize_market_cap (fun q => q) [0, 0] = [0, 0] ∧
    normalize_market_cap (fun q => q) [0, 0] ≠ [50, 50] := by
  have h : normalize_market_cap (fun q => q) [0, 0] = [0, 0] := by
    simp [normalize_market_cap, List.filterMap_cons]
  refine ⟨h, ?_⟩
  rw [h]
  simp

/-- C5 (amended): when every candidate has the same strictly positive
market capitalization (including a single candidate), every transformed
value coincides and `normalize_market_cap` assigns the neutral score 50
to every candidate. -/
theorem identical_positive_caps_norm (rlog : ℚ → ℚ) (caps : List ℚ)
    (c : ℚ) (hne : caps ≠ []) (hc : 0 < c) (hall : ∀ x ∈ caps, x = c) :
    normalize_market_cap rlog caps = caps.map (fun _ => 50) := by
  have hmap : caps.map (fun x => if 0 < x then some (rlog x) else none) =
      caps.map (fun _ => some (rlog c)) := by
    apply List.map_congr_left
    intro a ha
    rw [hall a ha, if_pos hc]
  have hfm : (caps.map (fun x => if 0 < x then some (rlog x) else none)).filterMap id
      = caps.map (fun _ => rlog c) := by
    rw [hmap, List.filterMap_map]
    exact congrFun (List.filterMap_eq_map (fun _ => rlog c)) caps
  simp only [normalize_market_cap, hfm]
  rcases caps with _ | ⟨a, t⟩
  · exact absurd rfl hne
  · have hallmem : ∀ x ∈ t.map (fun _ : ℚ => rlog c), x = rlog c := by
      intro x hx
      rcases List.mem_map.mp hx with ⟨_, _, rfl⟩
      rfl
    simp only [List.map_cons]
    rw [show minOf (rlog c) (t.map fun _ => rlog c) = rlog c from
      foldl_min_allEq (rlog c) _ hallmem]
    rw [show maxOf (rlog c) (t.map fun _ => rlog c) = rlog c from
      foldl_max_allEq (rlog c) _ hallmem]
    simp

/-- Witness for C5 (amended): two candidates with the same positive cap
5 both get the neutral score 50. -/
theorem identical_positive_caps_norm_spot :
    normalize_market_cap (fun q => q) [5, 5] = List.map (fun _ => 50) [5, 5] :=
  identical_positive_caps_norm (fun q => q) [5, 5] 5 (by simp) (by norm_num)
    (by intro x hx; simp at hx; subst hx; rfl)

/-- Rows of `normalize_growth` depend on the input row only through its
clipped value: rows with equal clipped growth get equal normalized
scores. -/
lemma normalize_growth_getD_congr (rates : List ℚ) (i j : Nat)
    (hi : i < rates.length) (hj : j < rates.length)
    (hclip : clipQ (rates.getD i 0) (-50) 200
      = clipQ (rates.getD j 0) (-50) 200) :
    (normalize_growth rates).getD i 0 = (normalize_growth rates).getD j 0 := by
  rcases rates with _ | ⟨r, rs⟩
  · simp at hi
  · simp only [normalize_growth]
    split
    · rw [getD_map (fun _ => (50:ℚ)) 0 0 _ i hi,
        getD_map (fun _ => (50:ℚ)) 0 0 _ j hj]
    · rw [show clipQ r (-50) 200 :: rs.map (fun g => clipQ g (-50) 200)
          = (r :: rs).map (fun g => clipQ g (-50) 200) from
          (List.map_cons (fun g => clipQ g (-50) 200) r rs).symm]
      rw [List.map_map]
      rw [getD_map _ 0 0 _ i hi, getD_map _ 0 0 _ j hj]
      simp only [Function.comp_apply]
      rw [hclip]

/-- C6: raw growth rates are clipped to the band [-50, 200] before the
min–max rescale, so candidates with raw growth 500 and 201 receive
exactly the same normalized growth score as a candidate with raw growth
200 in the same set. -/
theorem growth_clipping_band (rates : List ℚ) (i j k : Nat)
    (hi : i < rates.length) (hj : j < rates.length) (hk : k < rates.length)
    (h500 : rates.getD i 0 = 500) (h201 : rates.getD j 0 = 201)
    (h200 : rates.getD k 0 = 200) :
    (normalize_growth rates).getD i 0 = (normalize_growth rates).getD k 0 ∧
    (normalize_growth rates).getD j 0 = (normalize_growth rates).getD k 0 := by
  constructor
  · apply normalize_growth_getD_congr rates i k hi hk
    rw [h500, h200]
    norm_num [clipQ]
  · apply normalize_growth_getD_congr rates j k hj hk
    rw [h201, h200]
    norm_num [clipQ]

/-- Witness for C6: in the concrete set [500, 201, 200] all three rows
normalize identically. -/
theorem growth_clipping_band_spot :
    (normalize_growth [500, 201, 200]).getD 0 0
      = (normalize_growth [500, 201, 200]).getD 2 0 ∧
    (normalize_growth [500, 201, 200]).getD 1 0
      = (normalize_growth [500, 201, 200]).getD 2 0 :=
  growth_clipping_band [500, 201, 200] 0 1 2 (by norm_num) (by norm_num)
    (by norm_num) rfl rfl rfl

/-- C2 (code bug at this input): with the valid configuration
(1, 0, 0) for the factor weights (non-negative, summing to 1.0) and
bounds max 0.15 / min 0.01, a single candidate with 0% exposure has raw
blended score 0, so the total of the raw scores is 0 and the source
divides by zero: numpy emits NaN weights that reach the returned
constituents (the `none` of the embedding).  No deterministic fallback
exists in `calculate_weights`. -/
theorem zero_total_score_nan :
    calculate_weights (fun q => q) ⟨1, 0, 0, 3/20, 1/100⟩
      [⟨"ZED", "Zed Space", 1000000000, 0, 10, "Launch"⟩] = none := by
  norm_num [calculate_weights, rawConstituents, finalWeights, rawScores,
    normalize_market_cap, normalize_growth, zipWith3, clipQ, minOf, maxOf,
    List.filterMap_cons]

/-- C1 counterexample: a non-empty candidate set together with a config
whose factor weights sum to 1.0 — namely (1, 0, 0) — on which the raw
blended scores are all 0 (both candidates have 0% exposure), so the
weight division is by zero and the source returns NaN weights (the
`none` of the embedding) instead of a list of weights summing to
1 ± 1e-6. -/
theorem weight_sum_cex :
    calculate_weights (fun q => q) ⟨1, 0, 0, 3/20, 1/100⟩
      [⟨"AAA", "Alpha Orbital", 10, 0, 5, ""⟩,
       ⟨"BBB", "Beta Relay", 20, 0, 7, ""⟩] = none := by
  norm_num [calculate_weights, rawConstituents, finalWeights, rawScores,
    normalize_market_cap, normalize_growth, zipWith3, clipQ, minOf, maxOf,
    List.filterMap_cons]

/-- C7 counterexample: a single-candidate input with a valid config —
factor weights (1, 0, 0), bounds max 0.15 / min 0.01 — whose raw
blended score is 0 (0% exposure): the source divides 0 by 0 and returns
a NaN weight (the `none` of the embedding), not the weight 1.0 the
claim asserts for every single-candidate input. -/
theorem singleton_weight_cex :
    calculate_weights (fun q => q) ⟨1, 0, 0, 3/20, 1/100⟩
      [⟨"YYY", "Wye Station", 5000000, 0, 50, "Ground"⟩] = none := by
  norm_num [calculate_weights, rawConstituents, finalWeights, rawScores,
    normalize_market_cap, normalize_growth, zipWith3, clipQ, minOf, maxOf,
    List.filterMap_cons]

/-- C1 (amended): for every non-empty candidate set and valid config
(factor weights summing to 1.0, positive position bounds) whose raw
blended scores have a strictly positive sum, the final weights of
`calculate_weights` sum to exactly 1.0 after clipping and
renormalization — in particular within the claimed 1e-6.  (The
positive-total restriction is forced by `weight_sum_cex`: on an
all-zero score set the division by the zero total has no fallback and
the source emits NaN weights.) -/
theorem weights_sum_to_one (rlog : ℚ → ℚ) (cfg : SpaceIndexWeighting)
    (comps : List Company) (cs : List IndexConstituent)
    (hne : comps ≠ [])
    (_hw : cfg.w_space_rev + cfg.w_market_cap + cfg.w_growth = 1)
    (hmn : 0 < cfg.min_weight) (hmx : 0 < cfg.max_weight)
    (hpos : 0 < (rawScores rlog cfg comps).sum)
    (hcs : calculate_weights rlog cfg comps = some cs) :
    |(cs.map (fun c => c.weight)).sum - 1| ≤ 1/1000000 := by
  obtain ⟨ws, hfw, hrc, hlen, hsum, hposw⟩ :=
    rawConstituents_eq rlog cfg comps hmn hmx hpos
  rw [calculate_weights_of_ne_nil rlog cfg comps hne, hrc,
    Option.map_some'] at hcs
  injection hcs with hcs
  subst hcs
  have hperm :=
    ((perm_sortWeightDesc
      (zipWith3 mkConstituent comps (rawScores rlog cfg comps) ws)).map
      (fun c => c.weight)).sum_eq
  rw [hperm, map_weight_zipWith3 comps _ ws
    (length_rawScores rlog cfg comps) hlen, hsum]
  norm_num

/-- Witness for C1 (amended): a single candidate with 90% exposure, cap
10 and growth 120 under the default config (0.4, 0.3, 0.3, 0.15, 0.01)
gets weight 1; the weight total is 1 within 1e-6. -/
theorem weights_sum_to_one_spot :
    |((([⟨"AST", "Alpha Sat", 10, 90, 120, 66, 1, "Satellites"⟩] :
      List IndexConstituent).map (fun c => c.weight)).sum - 1 : ℚ)|
      ≤ 1/1000000 :=
  weights_sum_to_one (fun q => q) ⟨2/5, 3/10, 3/10, 3/20, 1/100⟩
    [⟨"AST", "Alpha Sat", 10, 90, 120, "Satellites"⟩]
    [⟨"AST", "Alpha Sat", 10, 90, 120, 66, 1, "Satellites"⟩]
    (by simp) (by norm_num) (by norm_num) (by norm_num)
    (by norm_num [rawScores, normalize_market_cap, normalize_growth,
      zipWith3, clipQ, minOf, maxOf, List.filterMap_cons])
    (by norm_num [calculate_weights, rawConstituents, finalWeights,
      rawScores, normalize_market_cap, normalize_growth, zipWith3, clipQ,
      minOf, maxOf, List.filterMap_cons, sortWeightDesc,
      List.insertionSort, List.orderedInsert, mkConstituent])

/-- C10: whenever the raw blended scores have a strictly positive sum
(and the config has positive position bounds), every constituent
returned by `calculate_weights` has a strictly positive final weight:
clipping raises every unconstrained weight to at least the positive
lower bound before the final renormalization, so even a candidate with
raw score 0 gets a positive weight. -/
theorem weights_positive (rlog : ℚ → ℚ) (cfg : SpaceIndexWeighting)
    (comps : List Company) (cs : List IndexConstituent)
    (hmn : 0 < cfg.min_weight) (hmx : 0 < cfg.max_weight)
    (hpos : 0 < (rawScores rlog cfg comps).sum)
    (hcs : calculate_weights rlog cfg comps = some cs) :
    ∀ c ∈ cs, 0 < c.weight := by
  have hne := comps_ne_nil_of_scores_sum_pos rlog cfg comps hpos
  obtain ⟨ws, hfw, hrc, hlen, hsum, hposw⟩ :=
    rawConstituents_eq rlog cfg comps hmn hmx hpos
  rw [calculate_weights_of_ne_nil rlog cfg comps hne, hrc,
    Option.map_some'] at hcs
  injection hcs with hcs
  subst hcs
  intro c hc
  have hc2 : c ∈ zipWith3 mkConstituent comps (rawScores rlog cfg comps) ws :=
    (perm_sortWeightDesc _).mem_iff.mp hc
  exact hposw _ (weight_mem_of_mem_zipWith3 comps _ ws c hc2)

/-- Witness for C10: in a three-candidate set containing one candidate
with raw blended score 0 (zero exposure, unknown cap, lowest growth),
the output constituent at position 2 — the zero-score candidate, sorted
last — has strictly positive weight. -/
theorem weights_positive_spot :
    0 < (((calculate_weights (fun q => q) ⟨2/5, 3/10, 3/10, 3/20, 1/100⟩
      [⟨"AAA", "Zero Corp", 0, 0, -50, ""⟩,
       ⟨"BBB", "Mid Corp", 10, 50, 0, ""⟩,
       ⟨"CCC", "Big Corp", 100, 80, 100, ""⟩]).getD []).getD 2 cdef).weight :=
  weights_positive (fun q => q) ⟨2/5, 3/10, 3/10, 3/20, 1/100⟩
    [⟨"AAA", "Zero Corp", 0, 0, -50, ""⟩,
     ⟨"BBB", "Mid Corp", 10, 50, 0, ""⟩,
     ⟨"CCC", "Big Corp", 100, 80, 100, ""⟩]
    ((calculate_weights (fun q => q) ⟨2/5, 3/10, 3/10, 3/20, 1/100⟩
      [⟨"AAA", "Zero Corp", 0, 0, -50, ""⟩,
       ⟨"BBB", "Mid Corp", 10, 50, 0, ""⟩,
       ⟨"CCC", "Big Corp", 100, 80, 100, ""⟩]).getD [])
    (by norm_num) (by norm_num)
    (by norm_num [rawScores, normalize_market_cap, normalize_growth,
      zipWith3, clipQ, minOf, maxOf, List.filterMap_cons])
    (by norm_num [calculate_weights, rawConstituents, finalWeights,
      rawScores, normalize_market_cap, normalize_growth, zipWith3, clipQ,
      minOf, maxOf, List.filterMap_cons, sortWeightDesc,
      List.insertionSort, List.orderedInsert, wge, mkConstituent])
    ((((calculate_weights (fun q => q) ⟨2/5, 3/10, 3/10, 3/20, 1/100⟩
      [⟨"AAA", "Zero Corp", 0, 0, -50, ""⟩,
       ⟨"BBB", "Mid Corp", 10, 50, 0, ""⟩,
       ⟨"CCC", "Big Corp", 100, 80, 100, ""⟩]).getD []).getD 2 cdef))
    (by norm_num [calculate_weights, rawConstituents, finalWeights,
      rawScores, normalize_market_cap, normalize_growth, zipWith3, clipQ,
      minOf, maxOf, List.filterMap_cons, sortWeightDesc,
      List.insertionSort, List.orderedInsert, wge, mkConstituent, cdef])

/-- C4: whenever the raw blended scores have a strictly positive sum
(and the position bounds are positive, as a valid config requires), the
pre-sort constituent list exists, `calculate_weights` returns exactly
its stable descending sort, and every constituent retains its raw
blended score unchanged while its final weight equals the two-step
computation written from the spec (`specTwoStepWeight`): the score
divided by the total, clipped to `[min_w, max_w]`, divided by the sum
of all clipped weights.  The raw score of row `i` is exactly the blend
`exposure * w_exposure + cap_norm * w_cap + growth_norm * w_growth`. -/
theorem two_step_weights (rlog : ℚ → ℚ) (cfg : SpaceIndexWeighting)
    (comps : List Company)
    (hmn : 0 < cfg.min_weight) (hmx : 0 < cfg.max_weight)
    (hpos : 0 < (rawScores rlog cfg comps).sum) :
    ∃ l, rawConstituents rlog cfg comps = some l ∧
      calculate_weights rlog cfg comps = some (sortWeightDesc l) ∧
      l.length = comps.length ∧
      ∀ i, i < comps.length →
        (l.getD i cdef).raw_score = (rawScores rlog cfg comps).getD i 0 ∧
        (l.getD i cdef).weight
          = specTwoStepWeight cfg (rawScores rlog cfg comps) i ∧
        (rawScores rlog cfg comps).getD i 0 =
          (comps.map (fun x => x.space_revenue_pct)).getD i 0
              * cfg.w_space_rev
            + (normalize_market_cap rlog
                (comps.map (fun x => x.market_cap))).getD i 0
              * cfg.w_market_cap
            + (normalize_growth
                (comps.map (fun x => x.revenue_growth_rate))).getD i 0
              * cfg.w_growth := by
  have hne := comps_ne_nil_of_scores_sum_pos rlog cfg comps hpos
  have hfw := finalWeights_eq cfg (rawScores rlog cfg comps) hpos hmn hmx
  have hrc : rawConstituents rlog cfg comps =
      some (zipWith3 mkConstituent comps (rawScores rlog cfg comps)
        (((rawScores rlog cfg comps).map (fun s =>
            clipQ (s / (rawScores rlog cfg comps).sum)
              cfg.min_weight cfg.max_weight)).map
          (fun w => w /
            ((rawScores rlog cfg comps).map (fun s =>
              clipQ (s / (rawScores rlog cfg comps).sum)
                cfg.min_weight cfg.max_weight)).sum))) := by
    unfold rawConstituents
    rw [hfw]
  have hlen_s : (rawScores rlog cfg comps).length = comps.length :=
    length_rawScores rlog cfg comps
  have hlen_cl : ((rawScores rlog cfg comps).map (fun s =>
      clipQ (s / (rawScores rlog cfg comps).sum)
        cfg.min_weight cfg.max_weight)).length = comps.length := by
    rw [List.length_map]; exact hlen_s
  have hlen_ws : (((rawScores rlog cfg comps).map (fun s =>
      clipQ (s / (rawScores rlog cfg comps).sum)
        cfg.min_weight cfg.max_weight)).map
      (fun w => w /
        ((rawScores rlog cfg comps).map (fun s =>
          clipQ (s / (rawScores rlog cfg comps).sum)
            cfg.min_weight cfg.max_weight)).sum)).length = comps.length := by
    rw [List.length_map]; exact hlen_cl
  refine ⟨_, hrc, ?_, ?_, ?_⟩
  · rw [calculate_weights_of_ne_nil rlog cfg comps hne, hrc,
      Option.map_some']
  · exact length_zipWith3 _ comps _ _ hlen_s hlen_ws
  · intro i hi
    have hgetD := getD_zipWith3 mkConstituent compdef 0 0 cdef comps
      (rawScores rlog cfg comps) _ i hi hlen_s hlen_ws
    have hi_s : i < (rawScores rlog cfg comps).length := by
      rw [hlen_s]; exact hi
    have hi_cl : i < ((rawScores rlog cfg comps).map (fun s =>
        clipQ (s / (rawScores rlog cfg comps).sum)
          cfg.min_weight cfg.max_weight)).length := by
      rw [hlen_cl]; exact hi
    refine ⟨?_, ?_, ?_⟩
    · rw [hgetD]
      rfl
    · rw [hgetD]
      show (((rawScores rlog cfg comps).map (fun s =>
          clipQ (s / (rawScores rlog cfg comps).sum)
            cfg.min_weight cfg.max_weight)).map
          (fun w => w /
            ((rawScores rlog cfg comps).map (fun s =>
              clipQ (s / (rawScores rlog cfg comps).sum)
                cfg.min_weight cfg.max_weight)).sum)).getD i 0 = _
      rw [getD_map _ 0 0 _ i hi_cl]
      rw [getD_map _ 0 0 _ i hi_s]
      simp only [specTwoStepWeight]
    · show (rawScores rlog cfg comps).getD i 0 = _
      unfold rawScores
      rw [getD_zipWith3 _ 0 0 0 0
        (comps.map (fun x => x.space_revenue_pct))
        (normalize_market_cap rlog (comps.map (fun x => x.market_cap)))
        (normalize_growth (comps.map (fun x => x.revenue_growth_rate)))
        i (by rw [List.length_map]; exact hi)
        (by rw [length_normalize_market_cap, List.length_map,
          List.length_map])
        (by rw [length_normalize_growth, List.length_map,
          List.length_map])]

/-- Witness for C4: the two-step weight identity at a concrete
single-candidate input under the default config. -/
theorem two_step_weights_spot :
    ∃ l, rawConstituents (fun q => q) ⟨2/5, 3/10, 3/10, 3/20, 1/100⟩
        [⟨"AST", "Solo Sat", 10, 90, 120, "Sat"⟩] = some l ∧
      calculate_weights (fun q => q) ⟨2/5, 3/10, 3/10, 3/20, 1/100⟩
        [⟨"AST", "Solo Sat", 10, 90, 120, "Sat"⟩] = some (sortWeightDesc l) ∧
      l.length = ([⟨"AST", "Solo Sat", 10, 90, 120, "Sat"⟩] : List Company).length ∧
      ∀ i, i < ([⟨"AST", "Solo Sat", 10, 90, 120, "Sat"⟩] : List Company).length →
        (l.getD i cdef).raw_score
          = (rawScores (fun q => q) ⟨2/5, 3/10, 3/10, 3/20, 1/100⟩
              [⟨"AST", "Solo Sat", 10, 90, 120, "Sat"⟩]).getD i 0 ∧
        (l.getD i cdef).weight
          = specTwoStepWeight ⟨2/5, 3/10, 3/10, 3/20, 1/100⟩
              (rawScores (fun q => q) ⟨2/5, 3/10, 3/10, 3/20, 1/100⟩
                [⟨"AST", "Solo Sat", 10, 90, 120, "Sat"⟩]) i ∧
        (rawScores (fun q => q) ⟨2/5, 3/10, 3/10, 3/20, 1/100⟩
            [⟨"AST", "Solo Sat", 10, 90, 120, "Sat"⟩]).getD i 0 =
          (([⟨"AST", "Solo Sat", 10, 90, 120, "Sat"⟩] : List Company).map
              (fun x => x.space_revenue_pct)).getD i 0 * (2/5)
            + (normalize_market_cap (fun q => q)
                (([⟨"AST", "Solo Sat", 10, 90, 120, "Sat"⟩] : List Company).map
                  (fun x => x.market_cap))).getD i 0 * (3/10)
            + (normalize_growth
                (([⟨"AST", "Solo Sat", 10, 90, 120, "Sat"⟩] : List Company).map
                  (fun x => x.revenue_growth_rate))).getD i 0 * (3/10) :=
  two_step_weights (fun q => q) ⟨2/5, 3/10, 3/10, 3/20, 1/100⟩
    [⟨"AST", "Solo Sat", 10, 90, 120, "Sat"⟩]
    (by norm_num) (by norm_num)
    (by norm_num [rawScores, normalize_market_cap, normalize_growth,
      zipWith3, clipQ, minOf, maxOf, List.filterMap_cons])

/-- C8: every constituent list returned by `calculate_weights` is
sorted by descending final weight; the empty input returns the empty
list; and whenever the pre-sort list exists, the output is exactly its
stable sort — constituents of equal weight keep the pre-sort order,
which is the input order (the pre-sort ticker column equals the input
ticker column). -/
theorem output_sorted_stable (rlog : ℚ → ℚ) (cfg : SpaceIndexWeighting)
    (comps : List Company) (cs : List IndexConstituent)
    (hcs : calculate_weights rlog cfg comps = some cs) :
    List.Sorted wge cs ∧
    (comps = [] → cs = []) ∧
    ∀ l, rawConstituents rlog cfg comps = some l →
      cs = sortWeightDesc l ∧
      (∀ q : ℚ, cs.filter (fun c => decide (c.weight = q))
        = l.filter (fun c => decide (c.weight = q))) ∧
      l.map (fun c => c.ticker) = comps.map (fun c => c.ticker) := by
  rcases comps with _ | ⟨a, t⟩
  · simp only [calculate_weights, Option.some.injEq] at hcs
    subst hcs
    refine ⟨List.sorted_nil, fun _ => rfl, ?_⟩
    intro l hl
    exfalso
    simp [rawConstituents, finalWeights, rawScores_nil] at hl
  · rw [calculate_weights_of_ne_nil rlog cfg (a :: t) (by simp)] at hcs
    rcases hrc : rawConstituents rlog cfg (a :: t) with _ | l0
    · rw [hrc] at hcs
      simp at hcs
    · rw [hrc, Option.map_some'] at hcs
      injection hcs with hcs
      subst hcs
      refine ⟨sorted_sortWeightDesc l0, by simp, ?_⟩
      intro l hl
      injection hl with hl
      subst hl
      refine ⟨rfl, fun q => filter_sortWeightDesc q l0, ?_⟩
      unfold rawConstituents at hrc
      rcases hfw : finalWeights cfg (rawScores rlog cfg (a :: t)) with _ | ws
      · rw [hfw] at hrc
        exact absurd hrc (by simp)
      · rw [hfw] at hrc
        injection hrc with hrc
        rw [← hrc]
        exact map_ticker_zipWith3 (a :: t) _ ws
          (length_rawScores rlog cfg (a :: t))
          (by rw [length_finalWeights cfg _ ws hfw]
              exact length_rawScores rlog cfg (a :: t))

/-- Witness for C8: a concrete two-candidate set whose two final
weights tie at 1/2; the output is sorted and ties keep input order. -/
theorem output_sorted_stable_spot :
    List.Sorted wge ((calculate_weights (fun q => q)
      ⟨2/5, 3/10, 3/10, 3/20, 1/100⟩
      [⟨"RKL", "Rocket L", 25, 80, 50, "Launch"⟩,
       ⟨"AST", "AST M", 19, 90, 120, "Sat"⟩]).getD []) ∧
    (([⟨"RKL", "Rocket L", 25, 80, 50, "Launch"⟩,
       ⟨"AST", "AST M", 19, 90, 120, "Sat"⟩] : List Company) = [] →
      (calculate_weights (fun q => q) ⟨2/5, 3/10, 3/10, 3/20, 1/100⟩
        [⟨"RKL", "Rocket L", 25, 80, 50, "Launch"⟩,
         ⟨"AST", "AST M", 19, 90, 120, "Sat"⟩]).getD [] = []) ∧
    ∀ l, rawConstituents (fun q => q) ⟨2/5, 3/10, 3/10, 3/20, 1/100⟩
        [⟨"RKL", "Rocket L", 25, 80, 50, "Launch"⟩,
         ⟨"AST", "AST M", 19, 90, 120, "Sat"⟩] = some l →
      (calculate_weights (fun q => q) ⟨2/5, 3/10, 3/10, 3/20, 1/100⟩
        [⟨"RKL", "Rocket L", 25, 80, 50, "Launch"⟩,
         ⟨"AST", "AST M", 19, 90, 120, "Sat"⟩]).getD [] = sortWeightDesc l ∧
      (∀ q : ℚ, ((calculate_weights (fun q => q)
          ⟨2/5, 3/10, 3/10, 3/20, 1/100⟩
          [⟨"RKL", "Rocket L", 25, 80, 50, "Launch"⟩,
           ⟨"AST", "AST M", 19, 90, 120, "Sat"⟩]).getD []).filter
          (fun c => decide (c.weight = q))
        = l.filter (fun c => decide (c.weight = q))) ∧
      l.map (fun c => c.ticker) =
        ([⟨"RKL", "Rocket L", 25, 80, 50, "Launch"⟩,
          ⟨"AST", "AST M", 19, 90, 120, "Sat"⟩] : List Company).map
          (fun c => c.ticker) :=
  output_sorted_stable (fun q => q) ⟨2/5, 3/10, 3/10, 3/20, 1/100⟩
    [⟨"RKL", "Rocket L", 25, 80, 50, "Launch"⟩,
     ⟨"AST", "AST M", 19, 90, 120, "Sat"⟩]
    ((calculate_weights (fun q => q) ⟨2/5, 3/10, 3/10, 3/20, 1/100⟩
      [⟨"RKL", "Rocket L", 25, 80, 50, "Launch"⟩,
       ⟨"AST", "AST M", 19, 90, 120, "Sat"⟩]).getD [])
    (by norm_num [calculate_weights, rawConstituents, finalWeights,
      rawScores, normalize_market_cap, normalize_growth, zipWith3, clipQ,
      minOf, maxOf, List.filterMap_cons, sortWeightDesc,
      List.insertionSort, List.orderedInsert, wge, mkConstituent])

/-- C7 (amended): a single-candidate input with positive maximum
position size whose raw blended score is nonzero gets final weight
exactly 1.0, regardless of `max_weight`/`min_weight` (the clipped
singleton weight renormalises to 1, not to `max_weight`).  For a
singleton both normalizers are in their degenerate branch: the growth
score is 50 and the cap score is 50 for a positive cap and 0 for an
unknown (non-positive) cap, so the raw score is the stated blend.  The
nonzero-score restriction is forced by `singleton_weight_cex`. -/
theorem singleton_weight_one (rlog : ℚ → ℚ) (cfg : SpaceIndexWeighting)
    (comp : Company) (hmx : 0 < cfg.max_weight)
    (hs : comp.space_revenue_pct * cfg.w_space_rev +
      (if 0 < comp.market_cap then (50:ℚ) else 0) * cfg.w_market_cap +
      50 * cfg.w_growth ≠ 0) :
    calculate_weights rlog cfg [comp] = some
      [⟨comp.ticker, comp.name, comp.market_cap, comp.space_revenue_pct,
        comp.revenue_growth_rate,
        comp.space_revenue_pct * cfg.w_space_rev +
          (if 0 < comp.market_cap then (50:ℚ) else 0) * cfg.w_market_cap +
          50 * cfg.w_growth, 1, comp.segments⟩] := by
  have hcap : normalize_market_cap rlog [comp.market_cap]
      = [if 0 < comp.market_cap then (50:ℚ) else 0] := by
    by_cases hc : 0 < comp.market_cap
    · simp [normalize_market_cap, hc, List.filterMap_cons, minOf, maxOf]
    · simp [normalize_market_cap, hc, List.filterMap_cons]
  have hgro : normalize_growth [comp.revenue_growth_rate] = [50] := by
    simp [normalize_growth, minOf, maxOf]
  have hscore : rawScores rlog cfg [comp] =
      [comp.space_revenue_pct * cfg.w_space_rev +
        (if 0 < comp.market_cap then (50:ℚ) else 0) * cfg.w_market_cap +
        50 * cfg.w_growth] := by
    simp only [rawScores, List.map_cons, List.map_nil, hcap, hgro, zipWith3]
  have hk : 0 < clipQ 1 cfg.min_weight cfg.max_weight := by
    unfold clipQ
    exact lt_min (lt_of_lt_of_le one_pos (le_max_left 1 cfg.min_weight)) hmx
  have hfw : finalWeights cfg (rawScores rlog cfg [comp]) = some [1] := by
    rw [hscore]
    simp only [finalWeights, List.sum_cons, List.sum_nil, add_zero,
      List.map_cons, List.map_nil]
    rw [if_neg hs, div_self hs]
    rw [if_neg hk.ne', div_self hk.ne']
  rw [calculate_weights_of_ne_nil rlog cfg [comp] (by simp)]
  unfold rawConstituents
  rw [hfw, hscore]
  simp [sortWeightDesc, List.insertionSort, List.orderedInsert, zipWith3,
    mkConstituent]

/-- Witness for C7 (amended): one candidate with 50% exposure, cap 2
and growth 5 under the default config gets final weight exactly 1. -/
theorem singleton_weight_one_spot :
    calculate_weights (fun q => q) ⟨2/5, 3/10, 3/10, 3/20, 1/100⟩
      [⟨"IRD", "Iridium Two", 2, 50, 5, "Satellites"⟩] = some
      [⟨"IRD", "Iridium Two", 2, 50, 5,
        50 * (2/5) + (if (0:ℚ) < 2 then (50:ℚ) else 0) * (3/10)
          + 50 * (3/10), 1, "Satellites"⟩] :=
  singleton_weight_one (fun q => q) ⟨2/5, 3/10, 3/10, 3/20, 1/100⟩
    ⟨"IRD", "Iridium Two", 2, 50, 5, "Satellites"⟩
    (by norm_num) (by norm_num)
